import Mathlib

/-!
Verification of the `Graph` class of `src/js/script.js` (the blog-grafo
repository).

The JavaScript class owns `this.adjacencyList`, a JS `Map` from vertex
identifiers to arrays of neighbor identifiers.  A JS `Map` is an
insertion-ordered association container with unique keys; we embed it as a
`List (V × List V)` carrying the key-uniqueness invariant.  Vertex
identifiers are abstracted as a type `V` with decidable equality (the demo
code uses strings and numbers); where the source sorts identifiers with the
default ascending comparison we additionally assume a linear order on `V`,
and where it interpolates identifiers into strings we assume `ToString V`.

Methods of the class touch `this.adjacencyList` only through `Map.has`,
`Map.get`, `Map.set` (in `addVertex`) and `Array.push` on a stored neighbor
array (in `addEdge`); the two mutating operations are embedded as the
state-transforming functions `Graph.addVertex` and `Graph.pushNeighbor`.
The query methods (`bfs`, `dfs`, `getAdjacencyList`, `getAdjacencyMatrix`)
contain no `Map.set` and no push on a stored array, so their embeddings are
pure functions of the graph; the `…Run` definitions expose the method-call
view `state → result × state` used by the frame-condition claims.
-/

set_option autoImplicit false
set_option linter.unusedSectionVars false
set_option linter.unusedVariables false

structure Graph (V : Type) where
  adjacencyList : List (V × List V)
  nodupKeys : (adjacencyList.map Prod.fst).Nodup

variable {V : Type} [DecidableEq V]

def Graph.empty (V : Type) : Graph V :=
  ⟨[], List.nodup_nil⟩

def Graph.get? (g : Graph V) (v : V) : Option (List V) :=
  (g.adjacencyList.find? (fun p => p.1 == v)).map Prod.snd

def Graph.getD (g : Graph V) (v : V) : List V :=
  (g.get? v).getD []

def Graph.has (g : Graph V) (v : V) : Bool :=
  (g.get? v).isSome

theorem Graph.has_eq_false_iff (g : Graph V) (v : V) :
    g.has v = false ↔ v ∉ g.adjacencyList.map Prod.fst := by
  unfold Graph.has Graph.get?
  rcases h : g.adjacencyList.find? (fun p => p.1 == v) with _ | p
  · constructor
    · intro _ hv
      rcases List.mem_map.1 hv with ⟨q, hq, hq1⟩
      exact List.find?_eq_none.1 h q hq (by simp [hq1])
    · intro _
      rw [h]
      rfl
  · have hp := List.find?_some h
    have hpm := List.mem_of_find?_eq_some h
    have hvmem : v ∈ g.adjacencyList.map Prod.fst :=
      List.mem_map.2 ⟨p, hpm, by simpa using hp⟩
    constructor
    · intro hfalse
      rw [h] at hfalse
      simp at hfalse
    · intro hnot
      exact absurd hvmem hnot

def Graph.addVertex (g : Graph V) (vertex : V) : Graph V :=
  if h : g.has vertex then g
  else
    { adjacencyList := g.adjacencyList ++ [(vertex, [])]
      nodupKeys := by
        have hv : vertex ∉ g.adjacencyList.map Prod.fst :=
          (Graph.has_eq_false_iff g vertex).1 (by simpa using h)
        rw [List.map_append]
        refine List.nodup_append.2 ⟨g.nodupKeys, by simp, ?_⟩
        intro x hx hx'
        simp only [List.map_cons, List.map_nil, List.mem_singleton] at hx'
        subst hx'
        exact hv hx }

theorem Graph.addVertex_of_has (g : Graph V) (v : V) (h : g.has v = true) :
    g.addVertex v = g := by
  unfold Graph.addVertex
  rw [dif_pos h]

theorem Graph.get?_addVertex_self (g : Graph V) (v : V) :
    (g.addVertex v).get? v = some (g.getD v) := by
  unfold Graph.addVertex
  split
  · next h =>
    unfold Graph.has at h
    rcases hg : g.get? v with _ | l
    · rw [hg] at h; simp at h
    · unfold Graph.getD; rw [hg]; rfl
  · next h =>
    have hnone : g.get? v = none := by
      rcases hg : g.get? v with _ | l
      · rfl
      · unfold Graph.has at h; rw [hg] at h; simp at h
    unfold Graph.get? at hnone ⊢
    dsimp only
    rw [List.find?_append]
    rcases hfind : g.adjacencyList.find? (fun p => p.1 == v) with _ | p
    · simp only [hfind, Option.none_or]
      unfold Graph.getD Graph.get?
      rw [hfind]
      simp [List.find?]
    · rw [hfind] at hnone; simp at hnone

theorem Graph.get?_addVertex_ne (g : Graph V) (v u : V) (h : u ≠ v) :
    (g.addVertex v).get? u = g.get? u := by
  unfold Graph.addVertex
  split
  · rfl
  · unfold Graph.get?
    dsimp only
    rw [List.find?_append]
    have hone : List.find? (fun p => p.1 == u) [(v, ([] : List V))] = none := by
      simp [List.find?, show (v == u) = false by simpa using fun hvu => h hvu.symm]
    rw [hone]
    rcases hfind : g.adjacencyList.find? (fun p => p.1 == u) with _ | p <;> simp

def Graph.pushNeighbor (g : Graph V) (v w : V) : Graph V :=
  ⟨g.adjacencyList.map (fun p => if p.1 == v then (p.1, p.2 ++ [w]) else p), by
    have hkeys : ∀ l : List (V × List V),
        (l.map (fun p => if p.1 == v then (p.1, p.2 ++ [w]) else p)).map Prod.fst =
          l.map Prod.fst := by
      intro l
      induction l with
      | nil => rfl
      | cons x xs ih =>
        simp only [List.map_cons, ih, List.cons.injEq, and_true]
        split <;> rfl
    rw [hkeys]
    exact g.nodupKeys⟩

theorem Graph.get?_pushNeighbor (g : Graph V) (v w u : V) :
    (g.pushNeighbor v w).get? u =
      if u = v then (g.get? u).map (fun ns => ns ++ [w]) else g.get? u := by
  unfold Graph.pushNeighbor Graph.get?
  dsimp only
  rw [List.find?_map]
  have hpred : ((fun p : V × List V => p.1 == u) ∘
      (fun p : V × List V => if p.1 == v then (p.1, p.2 ++ [w]) else p)) =
      (fun p : V × List V => p.1 == u) := by
    funext p
    simp only [Function.comp_apply]
    split <;> rfl
  rw [hpred]
  rcases hfind : g.adjacencyList.find? (fun p => p.1 == u) with _ | p
  · rw [hfind]
    split <;> rfl
  · rw [hfind]
    have hp : p.1 = u := by simpa using List.find?_some hfind
    by_cases huv : u = v
    · subst huv
      simp [hp]
    · have hpv : ¬p.1 = v := by
        rw [hp]
        exact huv
      simp [hpv, huv]

theorem Graph.has_pushNeighbor (g : Graph V) (v w u : V) :
    (g.pushNeighbor v w).has u = g.has u := by
  unfold Graph.has
  rw [Graph.get?_pushNeighbor]
  split <;> simp

theorem Graph.getD_pushNeighbor_self (g : Graph V) (v w : V) (h : g.has v = true) :
    (g.pushNeighbor v w).getD v = g.getD v ++ [w] := by
  unfold Graph.getD
  rw [Graph.get?_pushNeighbor, if_pos rfl]
  unfold Graph.has at h
  rcases hg : g.get? v with _ | l
  · rw [hg] at h
    simp at h
  · simp

theorem Graph.getD_pushNeighbor_ne (g : Graph V) (v w u : V) (h : u ≠ v) :
    (g.pushNeighbor v w).getD u = g.getD u := by
  unfold Graph.getD
  rw [Graph.get?_pushNeighbor, if_neg h]

theorem Graph.has_addVertex_self (g : Graph V) (v : V) :
    (g.addVertex v).has v = true := by
  unfold Graph.has
  rw [Graph.get?_addVertex_self]
  rfl

theorem Graph.has_addVertex (g : Graph V) (v u : V) :
    (g.addVertex v).has u = (g.has u || u == v) := by
  by_cases huv : u = v
  · subst huv
    simp [Graph.has_addVertex_self]
  · unfold Graph.has
    rw [Graph.get?_addVertex_ne g v u huv]
    simp [huv]

theorem Graph.getD_addVertex (g : Graph V) (v u : V) :
    (g.addVertex v).getD u = g.getD u := by
  by_cases huv : u = v
  · subst huv
    unfold Graph.getD
    rw [Graph.get?_addVertex_self]
    rfl
  · unfold Graph.getD
    rw [Graph.get?_addVertex_ne g v u huv]

def Graph.addEdge (g : Graph V) (vertex1 vertex2 : V) (directed : Bool) : Graph V :=
  let g1 := (g.addVertex vertex1).addVertex vertex2
  let g2 := g1.pushNeighbor vertex1 vertex2
  if directed then g2 else g2.pushNeighbor vertex2 vertex1

theorem Graph.has_addEdge (g : Graph V) (a b : V) (d : Bool) (u : V) :
    (g.addEdge a b d).has u = ((g.addVertex a).addVertex b).has u := by
  unfold Graph.addEdge
  dsimp only
  split <;> simp [Graph.has_pushNeighbor]

theorem Graph.has_ensure_fst (g : Graph V) (a b : V) :
    ((g.addVertex a).addVertex b).has a = true := by
  rw [Graph.has_addVertex]
  simp [Graph.has_addVertex_self]

theorem Graph.has_ensure_snd (g : Graph V) (a b : V) :
    ((g.addVertex a).addVertex b).has b = true :=
  Graph.has_addVertex_self _ b

theorem Graph.getD_addEdge_true_fst (g : Graph V) (a b : V) :
    (g.addEdge a b true).getD a = ((g.addVertex a).addVertex b).getD a ++ [b] := by
  unfold Graph.addEdge
  exact Graph.getD_pushNeighbor_self _ a b (Graph.has_ensure_fst g a b)

theorem Graph.getD_addEdge_true_snd (g : Graph V) (a b : V) (h : a ≠ b) :
    (g.addEdge a b true).getD b = ((g.addVertex a).addVertex b).getD b := by
  unfold Graph.addEdge
  exact Graph.getD_pushNeighbor_ne _ a b b h.symm

theorem Graph.getD_addEdge_false_fst (g : Graph V) (a b : V) (h : a ≠ b) :
    (g.addEdge a b false).getD a = ((g.addVertex a).addVertex b).getD a ++ [b] := by
  unfold Graph.addEdge
  simp only [Bool.false_eq_true, if_false]
  rw [Graph.getD_pushNeighbor_ne _ b a a h]
  exact Graph.getD_pushNeighbor_self _ a b (Graph.has_ensure_fst g a b)

theorem Graph.getD_addEdge_false_snd (g : Graph V) (a b : V) (h : a ≠ b) :
    (g.addEdge a b false).getD b = ((g.addVertex a).addVertex b).getD b ++ [a] := by
  unfold Graph.addEdge
  simp only [Bool.false_eq_true, if_false]
  rw [Graph.getD_pushNeighbor_self _ b a
    (by rw [Graph.has_pushNeighbor]; exact Graph.has_ensure_snd g a b)]
  rw [Graph.getD_pushNeighbor_ne _ a b b h.symm]

theorem Graph.mem_getD_addEdge_false_fst (g : Graph V) (a b : V) :
    b ∈ (g.addEdge a b false).getD a := by
  by_cases hab : a = b
  · subst hab
    unfold Graph.addEdge
    simp only [Bool.false_eq_true, if_false]
    rw [Graph.getD_pushNeighbor_self _ a a
      (by rw [Graph.has_pushNeighbor]; exact Graph.has_ensure_fst g a a)]
    simp
  · rw [Graph.getD_addEdge_false_fst g a b hab]
    simp

theorem Graph.mem_getD_addEdge_false_snd (g : Graph V) (a b : V) :
    a ∈ (g.addEdge a b false).getD b := by
  by_cases hab : a = b
  · subst hab
    exact Graph.mem_getD_addEdge_false_fst g a a
  · rw [Graph.getD_addEdge_false_snd g a b hab]
    simp

theorem Graph.mem_getD_addEdge_true_fst (g : Graph V) (a b : V) :
    b ∈ (g.addEdge a b true).getD a := by
  rw [Graph.getD_addEdge_true_fst g a b]
  simp

def Graph.getAdjacencyList [ToString V] (g : Graph V) : String :=
  g.adjacencyList.foldl
    (fun representation p =>
      representation ++
        (toString p.1 ++ ": [" ++ String.intercalate ", " (p.2.map toString) ++ "]\n"))
    ""

def Graph.adjacencyListLines [ToString V] (g : Graph V) : String :=
  String.join (g.adjacencyList.map (fun p =>
    toString p.1 ++ ": [" ++ String.intercalate ", " (p.2.map toString) ++ "]\n"))

theorem Graph.getAdjacencyList_eq_lines [ToString V] (g : Graph V) :
    g.getAdjacencyList = Graph.adjacencyListLines g := by
  unfold Graph.getAdjacencyList Graph.adjacencyListLines String.join
  rw [List.foldl_map]


def Graph.allVerts (g : Graph V) : List V :=
  (g.adjacencyList.map (fun p => p.1 :: p.2)).flatten

theorem Graph.mem_allVerts_of_mem_getD (g : Graph V) (v n : V) (h : n ∈ g.getD v) :
    n ∈ g.allVerts := by
  unfold Graph.getD Graph.get? at h
  rcases hfind : g.adjacencyList.find? (fun p => p.1 == v) with _ | p
  · rw [hfind] at h
    simp at h
  · rw [hfind] at h
    simp only [Option.map_some', Option.getD_some] at h
    have hpm := List.mem_of_find?_eq_some hfind
    unfold Graph.allVerts
    exact List.mem_flatten.2 ⟨p.1 :: p.2, List.mem_map.2 ⟨p, hpm, rfl⟩, by simp [h]⟩

inductive Graph.ReachN (g : Graph V) (s : V) : Nat → V → Prop where
  | refl : Graph.ReachN g s 0 s
  | step {n : Nat} {u w : V} : Graph.ReachN g s n u → w ∈ g.getD u → Graph.ReachN g s (n + 1) w

def Graph.Reachable (g : Graph V) (s v : V) : Prop :=
  ∃ n, Graph.ReachN g s n v

theorem Graph.ReachN.zero_eq {g : Graph V} {s v : V} (h : Graph.ReachN g s 0 v) : v = s := by
  cases h
  rfl

theorem Graph.ReachN.succ_iff {g : Graph V} {s v : V} {n : Nat} :
    Graph.ReachN g s (n + 1) v ↔ ∃ u, Graph.ReachN g s n u ∧ v ∈ g.getD u := by
  constructor
  · intro h
    cases h with
    | step hu hw => exact ⟨_, hu, hw⟩
  · rintro ⟨u, hu, hw⟩
    exact hu.step hw

theorem Graph.ReachN.head_decomp {g : Graph V} {s v : V} :
    ∀ {n : Nat}, Graph.ReachN g s (n + 1) v → ∃ x, x ∈ g.getD s ∧ Graph.ReachN g x n v := by
  intro n
  induction n generalizing v with
  | zero =>
    intro h
    rcases Graph.ReachN.succ_iff.1 h with ⟨u, hu, hw⟩
    exact ⟨v, hu.zero_eq ▸ hw, Graph.ReachN.refl⟩
  | succ m ih =>
    intro h
    rcases Graph.ReachN.succ_iff.1 h with ⟨u, hu, hw⟩
    rcases ih hu with ⟨x, hx, hxu⟩
    exact ⟨x, hx, hxu.step hw⟩

theorem length_filter_le_of_imp {α : Type} {p q : α → Bool} (l : List α)
    (h : ∀ x ∈ l, p x = true → q x = true) :
    (l.filter p).length ≤ (l.filter q).length := by
  induction l with
  | nil => simp
  | cons x xs ih =>
    have ih' := ih (fun y hy => h y (List.mem_cons_of_mem _ hy))
    by_cases hp : p x = true
    · simp only [List.filter_cons, hp, if_true, h x (List.mem_cons_self x xs) hp,
        List.length_cons]
      omega
    · simp only [Bool.not_eq_true] at hp
      simp only [List.filter_cons, hp, Bool.false_eq_true, if_false]
      by_cases hq : q x = true
      · simp only [hq, if_true, List.length_cons]
        omega
      · simp only [Bool.not_eq_true] at hq
        simp only [hq, Bool.false_eq_true, if_false]
        exact ih'

theorem length_filter_lt_of_imp {α : Type} {p q : α → Bool} (l : List α)
    (h : ∀ x ∈ l, p x = true → q x = true) (a : α) (ha : a ∈ l)
    (hqa : q a = true) (hpa : p a = false) :
    (l.filter p).length < (l.filter q).length := by
  induction l with
  | nil => cases ha
  | cons x xs ih =>
    have hmono : (xs.filter p).length ≤ (xs.filter q).length :=
      length_filter_le_of_imp xs (fun y hy => h y (List.mem_cons_of_mem _ hy))
    by_cases hp : p x = true
    · have hq := h x (List.mem_cons_self x xs) hp
      simp only [List.filter_cons, hp, if_true, hq, List.length_cons]
      have hax : a ≠ x := fun hax => by rw [hax, hp] at hpa; cases hpa
      have ha' : a ∈ xs := by
        rcases List.mem_cons.1 ha with h1 | h1
        · exact absurd h1 hax
        · exact h1
      have := ih (fun y hy h1 => h y (List.mem_cons_of_mem _ hy) h1) ha'
      omega
    · simp only [Bool.not_eq_true] at hp
      simp only [List.filter_cons, hp, Bool.false_eq_true, if_false]
      by_cases hq : q x = true
      · simp only [hq, if_true, List.length_cons]
        omega
      · simp only [Bool.not_eq_true] at hq
        simp only [hq, Bool.false_eq_true, if_false]
        have hax : a ≠ x := fun hax => by rw [← hax, hqa] at hq; cases hq
        have ha' : a ∈ xs := by
          rcases List.mem_cons.1 ha with h1 | h1
          · exact absurd h1 hax
          · exact h1
        exact ih (fun y hy h1 => h y (List.mem_cons_of_mem _ hy) h1) ha'

def Graph.bfsLoop (g : Graph V) (univ : List V)
    (hU : ∀ v n, n ∈ g.getD v → n ∈ univ)
    (visited queue result : List V)
    (hq : ∀ v ∈ queue, v ∈ univ) : List V :=
  match queue with
  | [] => result
  | vertex :: rest =>
    if vertex ∈ visited then
      g.bfsLoop univ hU visited rest result
        (fun v hv => hq v (List.mem_cons_of_mem _ hv))
    else
      g.bfsLoop univ hU (vertex :: visited)
        (rest ++ (g.getD vertex).filter (fun n => decide (n ∉ vertex :: visited)))
        (result ++ [vertex])
        (fun v hv => by
          rcases List.mem_append.1 hv with h | h
          · exact hq v (List.mem_cons_of_mem _ h)
          · exact hU vertex v (List.mem_of_mem_filter h))
termination_by ((univ.filter (fun v => decide (v ∉ visited))).length, queue.length)
decreasing_by
  · apply Prod.Lex.right
    simp
  · apply Prod.Lex.left
    have hvu : vertex ∈ univ := by
      solve_by_elim [List.mem_cons_self]
    refine length_filter_lt_of_imp univ ?_ vertex hvu ?_ ?_
    · intro x _ hx
      simp only [decide_eq_true_eq] at hx ⊢
      intro hmem
      exact hx (List.mem_cons_of_mem _ hmem)
    · simpa using (by assumption : vertex ∉ visited)
    · simp

def Graph.bfs (g : Graph V) (start : V) : List V :=
  g.bfsLoop (start :: g.allVerts)
    (fun v n h => List.mem_cons_of_mem _ (g.mem_allVerts_of_mem_getD v n h))
    [] [start] []
    (fun v hv => by
      rcases List.mem_cons.1 hv with h | h
      · exact h ▸ List.mem_cons_self _ _
      · cases h)

def Graph.dfsFold (g : Graph V) (univ : List V)
    (hU : ∀ v n, n ∈ g.getD v → n ∈ univ)
    (ns : List V) (visited result : List V)
    (hns : ∀ n ∈ ns, n ∈ univ) :
    { p : List V × List V // ∀ x ∈ visited, x ∈ p.1 } :=
  match ns with
  | [] => ⟨(visited, result), fun _ hx => hx⟩
  | vertex :: rest =>
    if hn : vertex ∈ visited then
      g.dfsFold univ hU rest visited result
        (fun m hm => hns m (List.mem_cons_of_mem _ hm))
    else
      let r1 := g.dfsFold univ hU (g.getD vertex) (vertex :: visited) (result ++ [vertex])
        (fun m hm => hU vertex m hm)
      let r2 := g.dfsFold univ hU rest r1.1.1 r1.1.2
        (fun m hm => hns m (List.mem_cons_of_mem _ hm))
      ⟨r2.1, fun x hx => r2.2 x (r1.2 x (List.mem_cons_of_mem _ hx))⟩
termination_by ((univ.filter (fun v => decide (v ∉ visited))).length, ns.length)
decreasing_by
  · apply Prod.Lex.right
    simp
  · apply Prod.Lex.left
    have hvu : vertex ∈ univ := by
      solve_by_elim [List.mem_cons_self]
    refine length_filter_lt_of_imp univ ?_ vertex hvu ?_ ?_
    · intro x _ hx
      simp only [decide_eq_true_eq] at hx ⊢
      intro hmem
      exact hx (List.mem_cons_of_mem _ hmem)
    · simpa using hn
    · simp
  · apply Prod.Lex.left
    have hvu : vertex ∈ univ := by
      solve_by_elim [List.mem_cons_self]
    refine length_filter_lt_of_imp univ ?_ vertex hvu ?_ ?_
    · intro x _ hx
      simp only [decide_eq_true_eq] at hx ⊢
      intro hmem
      exact hx (r1.2 x (List.mem_cons_of_mem _ hmem))
    · simpa using hn
    · simp only [decide_eq_false_iff_not, not_not]
      exact r1.2 vertex (List.mem_cons_self _ _)

def Graph.dfs (g : Graph V) (start : V) : List V :=
  (g.dfsFold (start :: g.allVerts)
    (fun v n h => List.mem_cons_of_mem _ (g.mem_allVerts_of_mem_getD v n h))
    (g.getD start) [start] [start]
    (fun n h => List.mem_cons_of_mem _ (g.mem_allVerts_of_mem_getD start n h))).1.2

def Graph.bfsRun (g : Graph V) (start : V) : List V × Graph V :=
  (g.bfs start, g)

def Graph.dfsRun (g : Graph V) (start : V) : List V × Graph V :=
  (g.dfs start, g)

def Graph.getAdjacencyListRun [ToString V] (g : Graph V) : String × Graph V :=
  (g.getAdjacencyList, g)

def Graph.getAdjacencyMatrix [LinearOrder V] (g : Graph V) : List (List Nat) × List V :=
  let vertices := List.insertionSort (· ≤ ·) (g.adjacencyList.map Prod.fst)
  let matrix := vertices.map (fun vertex1 => vertices.map (fun vertex2 =>
    if vertex2 ∈ g.getD vertex1 then 1 else 0))
  (matrix, vertices)

theorem Graph.getAdjacencyMatrix_snd_sorted [LinearOrder V] (g : Graph V) :
    (g.getAdjacencyMatrix).2.Pairwise (· ≤ ·) :=
  List.sorted_insertionSort (· ≤ ·) _

theorem Graph.getAdjacencyMatrix_snd_perm [LinearOrder V] (g : Graph V) :
    (g.getAdjacencyMatrix).2.Perm (g.adjacencyList.map Prod.fst) :=
  List.perm_insertionSort (· ≤ ·) _

/-- Invariant of the `bfs` while-loop.  The ghost lists `rl` and `ql` pair
every element of `result` and of `queue` with a breadth-first layer label:
`result` labels are exact distances from `s` and sorted, `queue` labels are
path lengths witnessing reachability, sorted, spreading over at most two
consecutive layers, and every vertex reachable from `s` is accounted for
either by `result` or through a queue entry. -/
structure Graph.BfsInv (g : Graph V) (s : V) (visited queue result : List V)
    (rl ql : List (V × Nat)) : Prop where
  hres : result = rl.map Prod.fst
  hque : queue = ql.map Prod.fst
  hvis : ∀ v, v ∈ visited ↔ v ∈ result
  hnodup : result.Nodup
  hexact : ∀ p ∈ rl, g.ReachN s p.2 p.1 ∧ ∀ m, g.ReachN s m p.1 → p.2 ≤ m
  hqreach : ∀ p ∈ ql, g.ReachN s p.2 p.1
  hrsorted : rl.Pairwise (fun a b => a.2 ≤ b.2)
  hqsorted : ql.Pairwise (fun a b => a.2 ≤ b.2)
  hrq : ∀ a ∈ rl, ∀ b ∈ ql, a.2 ≤ b.2
  hspread : ∀ a ∈ ql, ∀ b ∈ ql, b.2 ≤ a.2 + 1
  hclosed : ∀ p ∈ rl, ∀ x, x ∈ g.getD p.1 →
    (∃ q ∈ rl, q.1 = x) ∨ ∃ q ∈ ql, q.1 = x ∧ q.2 ≤ p.2 + 1
  hcov : ∀ w m, g.ReachN s m w →
    (∃ q ∈ rl, q.1 = w) ∨ ∃ q ∈ ql, ∃ k, g.ReachN q.1 k w ∧ q.2 + k ≤ m

/-- Properties of the finished breadth-first traversal: the output is
duplicate-free, contains exactly the vertices reachable from `s`, and is
sorted by non-decreasing edge-distance from `s` (earlier entries admit
paths no longer than any path to later entries). -/
structure Graph.BfsOut (g : Graph V) (s : V) (out : List V) : Prop where
  nodup : out.Nodup
  mem_iff : ∀ v, v ∈ out ↔ g.Reachable s v
  sorted : out.Pairwise (fun a b => ∀ n, g.ReachN s n b → ∃ m, m ≤ n ∧ g.ReachN s m a)

/-- Coverage lemma: walking `k` steps from a vertex recorded in `rl` with
label at most `c` either stays inside `rl` or crosses the queue frontier
through an entry whose label plus remaining path length is at most `c + k`. -/
theorem Graph.coverLemma (g : Graph V) (s : V) (rl ql : List (V × Nat))
    (hexact : ∀ p ∈ rl, g.ReachN s p.2 p.1 ∧ ∀ m, g.ReachN s m p.1 → p.2 ≤ m)
    (hclosed : ∀ p ∈ rl, ∀ x, x ∈ g.getD p.1 →
      (∃ q ∈ rl, q.1 = x) ∨ ∃ q ∈ ql, q.1 = x ∧ q.2 ≤ p.2 + 1) :
    ∀ (k c : Nat) (x w : V), (∃ p ∈ rl, p.1 = x ∧ p.2 ≤ c) → g.ReachN x k w →
      (∃ q ∈ rl, q.1 = w) ∨ ∃ q ∈ ql, ∃ m, g.ReachN q.1 m w ∧ q.2 + m ≤ c + k := by
  intro k
  induction k with
  | zero =>
    intro c x w ⟨p, hp, hp1, _⟩ hw
    exact Or.inl ⟨p, hp, by rw [hp1, hw.zero_eq]⟩
  | succ k ih =>
    intro c x w ⟨p, hp, hp1, hp2⟩ hw
    rcases Graph.ReachN.head_decomp hw with ⟨y, hy, hyw⟩
    rcases hclosed p hp y (hp1 ▸ hy) with ⟨q, hq, hq1⟩ | ⟨q, hq, hq1, hq2⟩
    · have hreachy : g.ReachN s (p.2 + 1) y := ((hexact p hp).1).step (hp1 ▸ hy)
      have hqbound : q.2 ≤ c + 1 :=
        le_trans ((hexact q hq).2 (p.2 + 1) (hq1 ▸ hreachy)) (by omega)
      rcases ih (c + 1) y w ⟨q, hq, hq1, hqbound⟩ hyw with hl | ⟨q', hq', m, hm1, hm2⟩
      · exact Or.inl hl
      · exact Or.inr ⟨q', hq', m, hm1, by omega⟩
    · exact Or.inr ⟨q, hq, k, hq1 ▸ hyw, by omega⟩

theorem pairwise_label_map {α : Type} (l : List α) (d : Nat) :
    (l.map (fun x => (x, d))).Pairwise (fun a b : α × Nat => a.2 ≤ b.2) := by
  induction l with
  | nil => simp
  | cons x xs ih =>
    rw [List.map_cons, List.pairwise_cons]
    refine ⟨?_, ih⟩
    intro b hb
    rcases List.mem_map.1 hb with ⟨y, hy, rfl⟩
    exact le_rfl

/-- Master lemma for the BFS loop: any state satisfying the loop invariant
produces a correct breadth-first output. -/
theorem Graph.bfsLoop_out (g : Graph V) (s : V) (univ : List V)
    (hU : ∀ v n, n ∈ g.getD v → n ∈ univ)
    (visited queue result : List V) (hq : ∀ v ∈ queue, v ∈ univ) :
    ∀ rl ql : List (V × Nat), Graph.BfsInv g s visited queue result rl ql →
      Graph.BfsOut g s (g.bfsLoop univ hU visited queue result hq) := by
  induction visited, queue, result, hq using Graph.bfsLoop.induct g univ hU with
  | case1 visited result hq _ =>
    intro rl ql inv
    rw [Graph.bfsLoop]
    have hql : ql = [] := by
      have h0 := inv.hque
      rcases ql with _ | ⟨qh, qt⟩
      · rfl
      · simp at h0
    refine ⟨inv.hnodup, ?_, ?_⟩
    · intro v
      constructor
      · intro hv
        rw [inv.hres] at hv
        rcases List.mem_map.1 hv with ⟨p, hp, hpv⟩
        exact ⟨p.2, hpv ▸ (inv.hexact p hp).1⟩
      · rintro ⟨n, hn⟩
        rcases inv.hcov v n hn with ⟨p, hp, hp1⟩ | ⟨q, hq', _⟩
        · rw [inv.hres]
          exact List.mem_map.2 ⟨p, hp, hp1⟩
        · rw [hql] at hq'
          cases hq'
    · rw [inv.hres]
      refine List.pairwise_map.2 (inv.hrsorted.imp_of_mem ?_)
      intro a b ha hb hab n hn
      exact ⟨a.2, le_trans hab ((inv.hexact b hb).2 n hn), (inv.hexact a ha).1⟩
  | case2 visited result vertex rest hq hmem _ ih =>
    intro rl ql inv
    rw [Graph.bfsLoop, if_pos hmem]
    rcases ql with _ | ⟨qh, qt⟩
    · have h0 := inv.hque
      simp at h0
    · have hq0 := inv.hque
      rw [List.map_cons] at hq0
      injection hq0 with h1 h2
      have hvres : vertex ∈ result := (inv.hvis vertex).1 hmem
      have hvrl : ∃ pr ∈ rl, pr.1 = vertex := by
        rw [inv.hres] at hvres
        rcases List.mem_map.1 hvres with ⟨pr, hpr, hpr1⟩
        exact ⟨pr, hpr, hpr1⟩
      have hDreach : g.ReachN s qh.2 vertex := by
        have h3 := inv.hqreach qh (List.mem_cons_self _ _)
        rwa [← h1] at h3
      have hclosed' : ∀ p ∈ rl, ∀ x, x ∈ g.getD p.1 →
          (∃ q ∈ rl, q.1 = x) ∨ ∃ q ∈ qt, q.1 = x ∧ q.2 ≤ p.2 + 1 := by
        intro p hp x hx
        rcases inv.hclosed p hp x hx with hl | ⟨q, hq', hq1, hq2⟩
        · exact Or.inl hl
        · rcases List.mem_cons.1 hq' with rfl | hq''
          · rcases hvrl with ⟨pr, hpr, hpr1⟩
            refine Or.inl ⟨pr, hpr, ?_⟩
            rw [hpr1, h1, hq1]
          · exact Or.inr ⟨q, hq'', hq1, hq2⟩
      have hcov' : ∀ w m, g.ReachN s m w →
          (∃ q ∈ rl, q.1 = w) ∨ ∃ q ∈ qt, ∃ k, g.ReachN q.1 k w ∧ q.2 + k ≤ m := by
        intro w m hw
        rcases inv.hcov w m hw with hl | ⟨q, hq', k, hk1, hk2⟩
        · exact Or.inl hl
        · rcases List.mem_cons.1 hq' with rfl | hq''
          · rcases hvrl with ⟨pr, hpr, hpr1⟩
            have hpr2 : pr.2 ≤ q.2 := (inv.hexact pr hpr).2 q.2 (by rw [hpr1]; exact hDreach)
            have hk1' : g.ReachN vertex k w := by
              rw [h1]
              exact hk1
            rcases Graph.coverLemma g s rl qt inv.hexact hclosed' k pr.2 vertex w
                ⟨pr, hpr, hpr1, le_rfl⟩ hk1' with hl | ⟨q', hq''', m', hm1, hm2⟩
            · exact Or.inl hl
            · exact Or.inr ⟨q', hq''', m', hm1, by omega⟩
          · exact Or.inr ⟨q, hq'', k, hk1, hk2⟩
      refine ih rl qt ?_
      exact {
        hres := inv.hres
        hque := h2
        hvis := inv.hvis
        hnodup := inv.hnodup
        hexact := inv.hexact
        hqreach := fun p hp => inv.hqreach p (List.mem_cons_of_mem _ hp)
        hrsorted := inv.hrsorted
        hqsorted := inv.hqsorted.of_cons
        hrq := fun a ha b hb => inv.hrq a ha b (List.mem_cons_of_mem _ hb)
        hspread := fun a ha b hb =>
          inv.hspread a (List.mem_cons_of_mem _ ha) b (List.mem_cons_of_mem _ hb)
        hclosed := hclosed'
        hcov := hcov' }
  | case3 visited result vertex rest hq hnot _ ih =>
    intro rl ql inv
    rw [Graph.bfsLoop, if_neg hnot]
    rcases ql with _ | ⟨qh, qt⟩
    · have h0 := inv.hque
      simp at h0
    · have hq0 := inv.hque
      rw [List.map_cons] at hq0
      injection hq0 with h1 h2
      have hvnotres : vertex ∉ result := fun hr => hnot ((inv.hvis vertex).2 hr)
      have hDreach : g.ReachN s qh.2 vertex := by
        have h3 := inv.hqreach qh (List.mem_cons_self _ _)
        rwa [← h1] at h3
      have hqh_le : ∀ b ∈ qt, qh.2 ≤ b.2 := fun b hb =>
        (List.pairwise_cons.1 inv.hqsorted).1 b hb
      have hDexact : ∀ m, g.ReachN s m vertex → qh.2 ≤ m := by
        intro m hm
        rcases inv.hcov vertex m hm with ⟨p, hp, hp1⟩ | ⟨q, hq', k, hk1, hk2⟩
        · have h3 : vertex ∈ result := by
            rw [inv.hres]
            exact List.mem_map.2 ⟨p, hp, hp1⟩
          exact absurd h3 hvnotres
        · have hqh : qh.2 ≤ q.2 := by
            rcases List.mem_cons.1 hq' with rfl | hq''
            · exact le_rfl
            · exact hqh_le q hq''
          omega
      have henq : ∀ x ∈ (g.getD vertex).filter (fun n => decide (n ∉ vertex :: visited)),
          x ∈ g.getD vertex ∧ x ∉ vertex :: visited := by
        intro x hx
        have h3 := List.mem_filter.1 hx
        exact ⟨h3.1, by simpa using h3.2⟩
      have hres' : result ++ [vertex] = (rl ++ [(vertex, qh.2)]).map Prod.fst := by
        rw [List.map_append, ← inv.hres]
        rfl
      have hque' : rest ++ (g.getD vertex).filter (fun n => decide (n ∉ vertex :: visited)) =
          (qt ++ ((g.getD vertex).filter (fun n => decide (n ∉ vertex :: visited))).map
            (fun x => (x, qh.2 + 1))).map Prod.fst := by
        rw [List.map_append, List.map_map, ← h2]
        have h3 : (Prod.fst ∘ fun x : V => (x, qh.2 + 1)) = id := rfl
        rw [h3, List.map_id]
      have hvis' : ∀ v, v ∈ vertex :: visited ↔ v ∈ result ++ [vertex] := by
        intro v
        simp only [List.mem_cons, List.mem_append, List.mem_singleton]
        have h3 := inv.hvis v
        tauto
      have hnodup' : (result ++ [vertex]).Nodup := by
        refine List.nodup_append.2 ⟨inv.hnodup, List.nodup_singleton _, ?_⟩
        intro x hx hx'
        rw [List.mem_singleton] at hx'
        subst hx'
        exact hvnotres hx
      have hexact' : ∀ p ∈ rl ++ [(vertex, qh.2)],
          g.ReachN s p.2 p.1 ∧ ∀ m, g.ReachN s m p.1 → p.2 ≤ m := by
        intro p hp
        rcases List.mem_append.1 hp with hp | hp
        · exact inv.hexact p hp
        · rw [List.mem_singleton] at hp
          subst hp
          exact ⟨hDreach, hDexact⟩
      have hqreach' : ∀ p ∈ qt ++ ((g.getD vertex).filter
            (fun n => decide (n ∉ vertex :: visited))).map (fun x => (x, qh.2 + 1)),
          g.ReachN s p.2 p.1 := by
        intro p hp
        rcases List.mem_append.1 hp with hp | hp
        · exact inv.hqreach p (List.mem_cons_of_mem _ hp)
        · rcases List.mem_map.1 hp with ⟨x, hx, rfl⟩
          exact hDreach.step (henq x hx).1
      have hrsorted' : (rl ++ [(vertex, qh.2)]).Pairwise (fun a b => a.2 ≤ b.2) := by
        refine List.pairwise_append.2 ⟨inv.hrsorted, List.pairwise_singleton _ _, ?_⟩
        intro a ha b hb
        rw [List.mem_singleton] at hb
        subst hb
        exact inv.hrq a ha qh (List.mem_cons_self _ _)
      have hqsorted' : (qt ++ ((g.getD vertex).filter
            (fun n => decide (n ∉ vertex :: visited))).map
            (fun x => (x, qh.2 + 1))).Pairwise (fun a b => a.2 ≤ b.2) := by
        refine List.pairwise_append.2 ⟨inv.hqsorted.of_cons, pairwise_label_map _ _, ?_⟩
        intro a ha b hb
        rcases List.mem_map.1 hb with ⟨x, hx, rfl⟩
        exact inv.hspread qh (List.mem_cons_self _ _) a (List.mem_cons_of_mem _ ha)
      have hrq' : ∀ a ∈ rl ++ [(vertex, qh.2)],
          ∀ b ∈ qt ++ ((g.getD vertex).filter
            (fun n => decide (n ∉ vertex :: visited))).map (fun x => (x, qh.2 + 1)),
          a.2 ≤ b.2 := by
        intro a ha b hb
        rcases List.mem_append.1 ha with ha | ha
        · rcases List.mem_append.1 hb with hb | hb
          · exact inv.hrq a ha b (List.mem_cons_of_mem _ hb)
          · rcases List.mem_map.1 hb with ⟨x, hx, rfl⟩
            exact le_trans (inv.hrq a ha qh (List.mem_cons_self _ _)) (Nat.le_succ _)
        · rw [List.mem_singleton] at ha
          subst ha
          rcases List.mem_append.1 hb with hb | hb
          · exact hqh_le b hb
          · rcases List.mem_map.1 hb with ⟨x, hx, rfl⟩
            exact Nat.le_succ _
      have hspread' : ∀ a ∈ qt ++ ((g.getD vertex).filter
            (fun n => decide (n ∉ vertex :: visited))).map (fun x => (x, qh.2 + 1)),
          ∀ b ∈ qt ++ ((g.getD vertex).filter
            (fun n => decide (n ∉ vertex :: visited))).map (fun x => (x, qh.2 + 1)),
          b.2 ≤ a.2 + 1 := by
        intro a ha b hb
        rcases List.mem_append.1 ha with ha | ha <;> rcases List.mem_append.1 hb with hb | hb
        · exact inv.hspread a (List.mem_cons_of_mem _ ha) b (List.mem_cons_of_mem _ hb)
        · rcases List.mem_map.1 hb with ⟨x, hx, rfl⟩
          exact Nat.succ_le_succ (hqh_le a ha)
        · rcases List.mem_map.1 ha with ⟨x, hx, rfl⟩
          exact le_trans (inv.hspread qh (List.mem_cons_self _ _) b
            (List.mem_cons_of_mem _ hb)) (Nat.le_succ _)
        · rcases List.mem_map.1 ha with ⟨x, hx, rfl⟩
          rcases List.mem_map.1 hb with ⟨y, hy, rfl⟩
          exact Nat.le_succ _
      have hclosed' : ∀ p ∈ rl ++ [(vertex, qh.2)], ∀ x, x ∈ g.getD p.1 →
          (∃ q ∈ rl ++ [(vertex, qh.2)], q.1 = x) ∨
            ∃ q ∈ qt ++ ((g.getD vertex).filter
              (fun n => decide (n ∉ vertex :: visited))).map (fun x => (x, qh.2 + 1)),
              q.1 = x ∧ q.2 ≤ p.2 + 1 := by
        intro p hp x hx
        rcases List.mem_append.1 hp with hp | hp
        · rcases inv.hclosed p hp x hx with ⟨q, hq', hq1⟩ | ⟨q, hq', hq1, hq2⟩
          · exact Or.inl ⟨q, List.mem_append_left _ hq', hq1⟩
          · rcases List.mem_cons.1 hq' with rfl | hq''
            · refine Or.inl ⟨(vertex, q.2),
                List.mem_append_right _ (List.mem_singleton_self _), ?_⟩
              rw [h1]
              exact hq1
            · exact Or.inr ⟨q, List.mem_append_left _ hq'', hq1, hq2⟩
        · rw [List.mem_singleton] at hp
          subst hp
          by_cases hxv : x ∈ vertex :: visited
          · rcases List.mem_cons.1 hxv with rfl | hxvis
            · exact Or.inl ⟨(x, qh.2),
                List.mem_append_right _ (List.mem_singleton_self _), rfl⟩
            · have h3 : x ∈ result := (inv.hvis x).1 hxvis
              rw [inv.hres] at h3
              rcases List.mem_map.1 h3 with ⟨pr, hpr, hpr1⟩
              exact Or.inl ⟨pr, List.mem_append_left _ hpr, hpr1⟩
          · refine Or.inr ⟨(x, qh.2 + 1), List.mem_append_right _ ?_, rfl, le_rfl⟩
            exact List.mem_map.2 ⟨x, List.mem_filter.2 ⟨hx, by simpa using hxv⟩, rfl⟩
      have hcov' : ∀ w m, g.ReachN s m w →
          (∃ q ∈ rl ++ [(vertex, qh.2)], q.1 = w) ∨
            ∃ q ∈ qt ++ ((g.getD vertex).filter
              (fun n => decide (n ∉ vertex :: visited))).map (fun x => (x, qh.2 + 1)),
              ∃ k, g.ReachN q.1 k w ∧ q.2 + k ≤ m := by
        intro w m hw
        rcases inv.hcov w m hw with ⟨p, hp, hp1⟩ | ⟨q, hq', k, hk1, hk2⟩
        · exact Or.inl ⟨p, List.mem_append_left _ hp, hp1⟩
        · rcases List.mem_cons.1 hq' with rfl | hq''
          · have hk1' : g.ReachN vertex k w := by
              rw [h1]
              exact hk1
            rcases Graph.coverLemma g s (rl ++ [(vertex, q.2)])
                (qt ++ ((g.getD vertex).filter
                  (fun n => decide (n ∉ vertex :: visited))).map (fun x => (x, q.2 + 1)))
                hexact' hclosed' k q.2 vertex w
                ⟨(vertex, q.2), List.mem_append_right _ (List.mem_singleton_self _),
                  rfl, le_rfl⟩ hk1' with hl | ⟨q', hq''', m', hm1, hm2⟩
            · exact Or.inl hl
            · exact Or.inr ⟨q', hq''', m', hm1, by omega⟩
          · exact Or.inr ⟨q, List.mem_append_left _ hq'', k, hk1, hk2⟩
      refine ih (rl ++ [(vertex, qh.2)]) (qt ++ ((g.getD vertex).filter
        (fun n => decide (n ∉ vertex :: visited))).map (fun x => (x, qh.2 + 1))) ?_
      exact {
        hres := hres'
        hque := hque'
        hvis := hvis'
        hnodup := hnodup'
        hexact := hexact'
        hqreach := hqreach'
        hrsorted := hrsorted'
        hqsorted := hqsorted'
        hrq := hrq'
        hspread := hspread'
        hclosed := hclosed'
        hcov := hcov' }

/-- The breadth-first traversal started from any vertex satisfies the
breadth-first output specification. -/
theorem Graph.bfs_out (g : Graph V) (start : V) :
    Graph.BfsOut g start (g.bfs start) := by
  unfold Graph.bfs
  refine Graph.bfsLoop_out g start _ _ _ _ _ _ [] [(start, 0)] ?_
  exact {
    hres := rfl
    hque := rfl
    hvis := by simp
    hnodup := List.nodup_nil
    hexact := by simp
    hqreach := by
      intro p hp
      rw [List.mem_singleton] at hp
      subst hp
      exact Graph.ReachN.refl
    hrsorted := List.Pairwise.nil
    hqsorted := List.pairwise_singleton _ _
    hrq := by simp
    hspread := by
      intro a ha b hb
      rw [List.mem_singleton] at ha hb
      subst ha
      subst hb
      exact Nat.le_succ _
    hclosed := by simp
    hcov := by
      intro w m hw
      exact Or.inr ⟨(start, 0), List.mem_singleton_self _, m, hw, by omega⟩ }

/-- A duplicate-free list whose members are exactly `s` is the singleton
list `[s]`. -/
theorem nodup_mem_iff_singleton {α : Type} {l : List α} {s : α}
    (hn : l.Nodup) (h : ∀ v, v ∈ l ↔ v = s) : l = [s] := by
  cases l with
  | nil => exact absurd ((h s).2 rfl) (List.not_mem_nil s)
  | cons a t =>
    have ha : a = s := (h a).1 (List.mem_cons_self _ _)
    subst ha
    cases t with
    | nil => rfl
    | cons b u =>
      have hb : b = a := (h b).1 (List.mem_cons_of_mem _ (List.mem_cons_self _ _))
      subst hb
      rcases List.nodup_cons.1 hn with ⟨hnot, _⟩
      exact absurd (List.mem_cons_self _ _) hnot

/-- From a vertex with no adjacency entry, the only reachable vertex is the
start itself. -/
theorem Graph.reachable_no_entry (g : Graph V) (start : V) (h : g.get? start = none) :
    ∀ n w, g.ReachN start n w → w = start := by
  intro n
  induction n with
  | zero =>
    intro w hw
    exact hw.zero_eq
  | succ k ih =>
    intro w hw
    rcases Graph.ReachN.succ_iff.1 hw with ⟨u, hu, hw'⟩
    have hu' : u = start := ih u hu
    subst hu'
    have hD : g.getD u = [] := by
      unfold Graph.getD
      rw [h]
      rfl
    rw [hD] at hw'
    cases hw'

/-- Input invariant of the DFS neighbor fold: `visited` and `result` hold
the same vertices, everything recorded is reachable from `s`, and every
neighbor of a visited vertex is visited, pending in `ns`, or pending in the
outer worklist `P`. -/
structure Graph.DfsInv (g : Graph V) (s : V) (ns visited result P : List V) : Prop where
  sync : ∀ v, v ∈ visited ↔ v ∈ result
  nodup : result.Nodup
  vsound : ∀ v ∈ visited, g.Reachable s v
  nsound : ∀ n ∈ ns, g.Reachable s n
  closed : ∀ v ∈ visited, ∀ x, x ∈ g.getD v → x ∈ visited ∨ x ∈ ns ∨ x ∈ P

/-- Conclusion of the DFS neighbor fold about its final state `out`:
`out.1` is the visited set and `out.2` the output sequence. -/
structure Graph.DfsFoldOut (g : Graph V) (s : V) (ns visited result P : List V)
    (out : List V × List V) : Prop where
  grow : ∃ t, out.2 = result ++ t
  sync : ∀ v, v ∈ out.1 ↔ v ∈ out.2
  nodup : out.2.Nodup
  sound : ∀ v ∈ out.1, g.Reachable s v
  covered : ∀ n ∈ ns, n ∈ out.1
  closed : ∀ v ∈ out.1, ∀ x, x ∈ g.getD v → x ∈ out.1 ∨ x ∈ P
  mono : ∀ v ∈ visited, v ∈ out.1

theorem Graph.dfsFold_cons_skip (g : Graph V) (univ : List V)
    (hU : ∀ v n, n ∈ g.getD v → n ∈ univ) (vertex : V) (rest visited result : List V)
    (hns : ∀ n ∈ vertex :: rest, n ∈ univ) (hmem : vertex ∈ visited) :
    g.dfsFold univ hU (vertex :: rest) visited result hns =
      g.dfsFold univ hU rest visited result
        (fun m hm => hns m (List.mem_cons_of_mem _ hm)) := by
  rw [Graph.dfsFold]
  rw [dif_pos hmem]

theorem Graph.dfsFold_cons_visit (g : Graph V) (univ : List V)
    (hU : ∀ v n, n ∈ g.getD v → n ∈ univ) (vertex : V) (rest visited result : List V)
    (hns : ∀ n ∈ vertex :: rest, n ∈ univ) (hmem : vertex ∉ visited) :
    (g.dfsFold univ hU (vertex :: rest) visited result hns).1 =
      (g.dfsFold univ hU rest
        (g.dfsFold univ hU (g.getD vertex) (vertex :: visited) (result ++ [vertex])
          (fun m hm => hU vertex m hm)).1.1
        (g.dfsFold univ hU (g.getD vertex) (vertex :: visited) (result ++ [vertex])
          (fun m hm => hU vertex m hm)).1.2
        (fun m hm => hns m (List.mem_cons_of_mem _ hm))).1 := by
  rw [Graph.dfsFold]
  rw [dif_neg hmem]

/-- Master lemma for the DFS fold: any state satisfying the invariant
produces an output with the fold postcondition. -/
theorem Graph.dfsFold_out (g : Graph V) (s : V) (univ : List V)
    (hU : ∀ v n, n ∈ g.getD v → n ∈ univ)
    (ns visited result : List V) (hns : ∀ n ∈ ns, n ∈ univ) :
    ∀ P : List V, Graph.DfsInv g s ns visited result P →
      Graph.DfsFoldOut g s ns visited result P (g.dfsFold univ hU ns visited result hns).1 := by
  induction ns, visited, result, hns using Graph.dfsFold.induct g univ hU with
  | case1 visited result hq _ =>
    intro P inv
    rw [Graph.dfsFold]
    exact {
      grow := ⟨[], (List.append_nil _).symm⟩
      sync := inv.sync
      nodup := inv.nodup
      sound := inv.vsound
      covered := by simp
      closed := by
        intro v hv x hx
        rcases inv.closed v hv x hx with h | h | h
        · exact Or.inl h
        · cases h
        · exact Or.inr h
      mono := fun v hv => hv }
  | case2 visited result vertex rest hq hmem _ ih =>
    intro P inv
    rw [Graph.dfsFold_cons_skip g univ hU vertex rest visited result _ hmem]
    have hout := ih P {
      sync := inv.sync
      nodup := inv.nodup
      vsound := inv.vsound
      nsound := fun n hn => inv.nsound n (List.mem_cons_of_mem _ hn)
      closed := by
        intro v hv x hx
        rcases inv.closed v hv x hx with h | h | h
        · exact Or.inl h
        · rcases List.mem_cons.1 h with rfl | h'
          · exact Or.inl hmem
          · exact Or.inr (Or.inl h')
        · exact Or.inr (Or.inr h) }
    exact {
      grow := hout.grow
      sync := hout.sync
      nodup := hout.nodup
      sound := hout.sound
      covered := by
        intro n hn
        rcases List.mem_cons.1 hn with rfl | hn'
        · exact hout.mono n hmem
        · exact hout.covered n hn'
      closed := hout.closed
      mono := hout.mono }
  | case3 visited result vertex rest hq hnot r1 hdup ih1 ih2 ih3 =>
    intro P inv
    rw [Graph.dfsFold_cons_visit g univ hU vertex rest visited result _ hnot]
    have hvres : vertex ∉ result := fun hr => hnot ((inv.sync vertex).2 hr)
    have hreachv : g.Reachable s vertex := inv.nsound vertex (List.mem_cons_self _ _)
    have hout1 := ih1 (rest ++ P) {
      sync := by
        intro v
        simp only [List.mem_cons, List.mem_append, List.mem_singleton]
        have h3 := inv.sync v
        tauto
      nodup := by
        refine List.nodup_append.2 ⟨inv.nodup, List.nodup_singleton _, ?_⟩
        intro x hx hx'
        rw [List.mem_singleton] at hx'
        subst hx'
        exact hvres hx
      vsound := by
        intro v hv
        rcases List.mem_cons.1 hv with rfl | hv'
        · exact hreachv
        · exact inv.vsound v hv'
      nsound := by
        intro x hx
        rcases hreachv with ⟨n, hn⟩
        exact ⟨n + 1, hn.step hx⟩
      closed := by
        intro v hv x hx
        rcases List.mem_cons.1 hv with rfl | hv'
        · exact Or.inr (Or.inl hx)
        · rcases inv.closed v hv' x hx with h | h | h
          · exact Or.inl (List.mem_cons_of_mem _ h)
          · rcases List.mem_cons.1 h with rfl | h'
            · exact Or.inl (List.mem_cons_self _ _)
            · exact Or.inr (Or.inr (List.mem_append_left _ h'))
          · exact Or.inr (Or.inr (List.mem_append_right _ h)) }
    have hout2 := ih3 P {
      sync := hout1.sync
      nodup := hout1.nodup
      vsound := hout1.sound
      nsound := fun n hn => inv.nsound n (List.mem_cons_of_mem _ hn)
      closed := by
        intro v hv x hx
        rcases hout1.closed v hv x hx with h | h
        · exact Or.inl h
        · rcases List.mem_append.1 h with h' | h'
          · exact Or.inr (Or.inl h')
          · exact Or.inr (Or.inr h') }
    refine {
      grow := ?_
      sync := hout2.sync
      nodup := hout2.nodup
      sound := hout2.sound
      covered := ?_
      closed := hout2.closed
      mono := ?_ }
    · rcases hout2.grow with ⟨t2, ht2⟩
      rcases hout1.grow with ⟨t1, ht1⟩
      exact ⟨[vertex] ++ t1 ++ t2, by rw [ht2, ht1]; simp⟩
    · intro n hn
      rcases List.mem_cons.1 hn with rfl | hn'
      · exact hout2.mono n (hout1.mono n (List.mem_cons_self _ _))
      · exact hout2.covered n hn'
    · intro v hv
      exact hout2.mono v (hout1.mono v (List.mem_cons_of_mem _ hv))

/-- Properties of the finished depth-first traversal: duplicate-free,
containing exactly the vertices reachable from `s`, and starting with `s`. -/
structure Graph.DfsOut (g : Graph V) (s : V) (out : List V) : Prop where
  nodup : out.Nodup
  mem_iff : ∀ v, v ∈ out ↔ g.Reachable s v
  head : ∃ t, out = s :: t

/-- Any adjacency-closed vertex set containing the start vertex contains
every vertex reachable from it. -/
theorem Graph.mem_of_closed (g : Graph V) (start : V) (S : List V)
    (hs : start ∈ S) (hc : ∀ v ∈ S, ∀ x, x ∈ g.getD v → x ∈ S) :
    ∀ n w, g.ReachN start n w → w ∈ S := by
  intro n
  induction n with
  | zero =>
    intro w hw
    rw [hw.zero_eq]
    exact hs
  | succ k ih =>
    intro w hw
    rcases Graph.ReachN.succ_iff.1 hw with ⟨u, hu, hw'⟩
    exact hc u (ih u hu) w hw'

/-- The depth-first traversal started from any vertex satisfies the
depth-first output specification. -/
theorem Graph.dfs_out (g : Graph V) (start : V) :
    Graph.DfsOut g start (g.dfs start) := by
  unfold Graph.dfs
  have hout := Graph.dfsFold_out g start (start :: g.allVerts)
    (fun v n h => List.mem_cons_of_mem _ (g.mem_allVerts_of_mem_getD v n h))
    (g.getD start) [start] [start]
    (fun n h => List.mem_cons_of_mem _ (g.mem_allVerts_of_mem_getD start n h))
    [] {
      sync := by simp
      nodup := List.nodup_singleton _
      vsound := by
        intro v hv
        rw [List.mem_singleton] at hv
        subst hv
        exact ⟨0, Graph.ReachN.refl⟩
      nsound := by
        intro x hx
        exact ⟨1, Graph.ReachN.refl.step hx⟩
      closed := by
        intro v hv x hx
        rw [List.mem_singleton] at hv
        subst hv
        exact Or.inr (Or.inl hx) }
  have hstart : start ∈ (g.dfsFold (start :: g.allVerts)
      (fun v n h => List.mem_cons_of_mem _ (g.mem_allVerts_of_mem_getD v n h))
      (g.getD start) [start] [start]
      (fun n h => List.mem_cons_of_mem _ (g.mem_allVerts_of_mem_getD start n h))).1.1 :=
    hout.mono start (List.mem_singleton_self _)
  have hclosed0 : ∀ v ∈ (g.dfsFold (start :: g.allVerts)
      (fun v n h => List.mem_cons_of_mem _ (g.mem_allVerts_of_mem_getD v n h))
      (g.getD start) [start] [start]
      (fun n h => List.mem_cons_of_mem _ (g.mem_allVerts_of_mem_getD start n h))).1.1,
      ∀ x, x ∈ g.getD v → x ∈ (g.dfsFold (start :: g.allVerts)
      (fun v n h => List.mem_cons_of_mem _ (g.mem_allVerts_of_mem_getD v n h))
      (g.getD start) [start] [start]
      (fun n h => List.mem_cons_of_mem _ (g.mem_allVerts_of_mem_getD start n h))).1.1 := by
    intro v hv x hx
    rcases hout.closed v hv x hx with h | h
    · exact h
    · cases h
  refine {
    nodup := hout.nodup
    mem_iff := ?_
    head := ?_ }
  · intro v
    constructor
    · intro hv
      exact hout.sound v ((hout.sync v).2 hv)
    · rintro ⟨n, hn⟩
      exact (hout.sync v).1 (Graph.mem_of_closed g start _ hstart hclosed0 n v hn)
  · rcases hout.grow with ⟨t, ht⟩
    exact ⟨t, ht⟩

theorem getD_map_of_lt {α β : Type} (l : List α) (f : α → β) (d : β) :
    ∀ i (hi : i < l.length), (l.map f).getD i d = f (l.get ⟨i, hi⟩) := by
  induction l with
  | nil =>
    intro i hi
    exact absurd hi (by simp)
  | cons x xs ih =>
    intro i hi
    cases i with
    | zero => rfl
    | succ j => exact ih j (Nat.lt_of_succ_lt_succ hi)

/-- Cell contents of the adjacency matrix: entry `(i, j)` is `1` when the
`j`-th sorted vertex occurs in the neighbor sequence of the `i`-th sorted
vertex, and `0` otherwise. -/
theorem Graph.matrix_cell [LinearOrder V] (g : Graph V) :
    ∀ i j (hi : i < (g.getAdjacencyMatrix).2.length)
      (hj : j < (g.getAdjacencyMatrix).2.length),
      (((g.getAdjacencyMatrix).1.getD i []).getD j 0) =
        if (g.getAdjacencyMatrix).2.get ⟨j, hj⟩ ∈
            g.getD ((g.getAdjacencyMatrix).2.get ⟨i, hi⟩) then 1 else 0 := by
  intro i j hi hj
  have h1 : (g.getAdjacencyMatrix).1 =
      (g.getAdjacencyMatrix).2.map (fun v1 => (g.getAdjacencyMatrix).2.map
        (fun v2 => if v2 ∈ g.getD v1 then 1 else 0)) := rfl
  rw [h1, getD_map_of_lt _ _ _ i hi, getD_map_of_lt _ _ _ j hj]

/-- C1: for every graph and every starting identifier, `bfs(start)` returns
a sequence in which each vertex reachable from `start` appears exactly once
(the output is duplicate-free and its members are exactly the reachable
vertices), ordered by non-decreasing edge-distance from `start`: every
earlier entry admits a path from `start` no longer than any path to any
later entry.  The tie-breaking of equal-distance vertices by adjacency
insertion order and queue arrival order is the order produced by the
embedded queue loop itself. -/
theorem Graph.bfs_correct (g : Graph V) (start : V) :
    (g.bfs start).Nodup ∧
    (∀ v, v ∈ g.bfs start ↔ g.Reachable start v) ∧
    (g.bfs start).Pairwise
      (fun a b => ∀ n, g.ReachN start n b → ∃ m, m ≤ n ∧ g.ReachN start m a) := by
  have h := g.bfs_out start
  exact ⟨h.nodup, h.mem_iff, h.sorted⟩

theorem Graph.bfs_correct_witness :
    ((Graph.empty Nat).bfs 0).Nodup ∧
    (∀ v, v ∈ (Graph.empty Nat).bfs 0 ↔ (Graph.empty Nat).Reachable 0 v) ∧
    ((Graph.empty Nat).bfs 0).Pairwise
      (fun a b => ∀ n, (Graph.empty Nat).ReachN 0 n b →
        ∃ m, m ≤ n ∧ (Graph.empty Nat).ReachN 0 m a) :=
  Graph.bfs_correct (Graph.empty Nat) 0

/-- C2: for every graph and every starting identifier, `dfs(start)` returns
a sequence in which each vertex reachable from `start` appears exactly once
(duplicate-free, members exactly the reachable vertices), visited in
pre-order: the output begins with `start`, and each not-yet-visited
neighbor's subtree is emitted by the recursive helper in adjacency order,
which is the order produced by the embedded fold itself. -/
theorem Graph.dfs_correct (g : Graph V) (start : V) :
    (g.dfs start).Nodup ∧
    (∀ v, v ∈ g.dfs start ↔ g.Reachable start v) ∧
    (∃ t, g.dfs start = start :: t) := by
  have h := g.dfs_out start
  exact ⟨h.nodup, h.mem_iff, h.head⟩

theorem Graph.dfs_correct_witness :
    ((Graph.empty Nat).dfs 0).Nodup ∧
    (∀ v, v ∈ (Graph.empty Nat).dfs 0 ↔ (Graph.empty Nat).Reachable 0 v) ∧
    (∃ t, (Graph.empty Nat).dfs 0 = 0 :: t) :=
  Graph.dfs_correct (Graph.empty Nat) 0

/-- C3: `getAdjacencyMatrix()` returns the sequence of all vertex
identifiers sorted ascending (a sorted permutation of the stored keys),
together with a square matrix of matching size whose cell `(i, j)` is `1`
when vertex `i` has vertex `j` in its neighbor sequence and `0` otherwise. -/
theorem Graph.getAdjacencyMatrix_correct [LinearOrder V] (g : Graph V) :
    (g.getAdjacencyMatrix).2.Pairwise (· ≤ ·) ∧
    (g.getAdjacencyMatrix).2.Perm (g.adjacencyList.map Prod.fst) ∧
    (g.getAdjacencyMatrix).1.length = (g.getAdjacencyMatrix).2.length ∧
    (g.getAdjacencyMatrix).1.map List.length =
      List.replicate (g.getAdjacencyMatrix).2.length (g.getAdjacencyMatrix).2.length ∧
    ∀ i j (hi : i < (g.getAdjacencyMatrix).2.length)
      (hj : j < (g.getAdjacencyMatrix).2.length),
      (((g.getAdjacencyMatrix).1.getD i []).getD j 0) =
        if (g.getAdjacencyMatrix).2.get ⟨j, hj⟩ ∈
            g.getD ((g.getAdjacencyMatrix).2.get ⟨i, hi⟩) then 1 else 0 := by
  refine ⟨Graph.getAdjacencyMatrix_snd_sorted g, Graph.getAdjacencyMatrix_snd_perm g,
    ?_, ?_, Graph.matrix_cell g⟩
  · have h1 : (g.getAdjacencyMatrix).1 =
        (g.getAdjacencyMatrix).2.map (fun v1 => (g.getAdjacencyMatrix).2.map
          (fun v2 => if v2 ∈ g.getD v1 then 1 else 0)) := rfl
    rw [h1, List.length_map]
  · have h1 : (g.getAdjacencyMatrix).1 =
        (g.getAdjacencyMatrix).2.map (fun v1 => (g.getAdjacencyMatrix).2.map
          (fun v2 => if v2 ∈ g.getD v1 then 1 else 0)) := rfl
    rw [h1, List.map_map]
    have h2 : (List.length ∘ fun v1 : V => (g.getAdjacencyMatrix).2.map
        (fun v2 => if v2 ∈ g.getD v1 then 1 else 0)) =
        fun _ : V => (g.getAdjacencyMatrix).2.length := by
      funext v1
      simp [Function.comp]
    rw [h2]
    simp [Function.const, List.map_const]

theorem Graph.getAdjacencyMatrix_correct_witness :
    (((Graph.empty Nat).addEdge 1 2 false).getAdjacencyMatrix).2.Pairwise (· ≤ ·) ∧
    (((Graph.empty Nat).addEdge 1 2 false).getAdjacencyMatrix).2.Perm
      (((Graph.empty Nat).addEdge 1 2 false).adjacencyList.map Prod.fst) ∧
    (((Graph.empty Nat).addEdge 1 2 false).getAdjacencyMatrix).1.length =
      (((Graph.empty Nat).addEdge 1 2 false).getAdjacencyMatrix).2.length ∧
    (((Graph.empty Nat).addEdge 1 2 false).getAdjacencyMatrix).1.map List.length =
      List.replicate (((Graph.empty Nat).addEdge 1 2 false).getAdjacencyMatrix).2.length
        (((Graph.empty Nat).addEdge 1 2 false).getAdjacencyMatrix).2.length ∧
    ∀ i j (hi : i < (((Graph.empty Nat).addEdge 1 2 false).getAdjacencyMatrix).2.length)
      (hj : j < (((Graph.empty Nat).addEdge 1 2 false).getAdjacencyMatrix).2.length),
      (((((Graph.empty Nat).addEdge 1 2 false).getAdjacencyMatrix).1.getD i []).getD j 0) =
        if (((Graph.empty Nat).addEdge 1 2 false).getAdjacencyMatrix).2.get ⟨j, hj⟩ ∈
            ((Graph.empty Nat).addEdge 1 2 false).getD
              ((((Graph.empty Nat).addEdge 1 2 false).getAdjacencyMatrix).2.get ⟨i, hi⟩)
          then 1 else 0 :=
  Graph.getAdjacencyMatrix_correct ((Graph.empty Nat).addEdge 1 2 false)

/-- C4: for every graph and every pair of indices into the sorted vertex
sequence returned by `getAdjacencyMatrix()`, the matrix cell `(i, j)` is
`1` exactly when the `j`-th vertex appears in the adjacency sequence of the
`i`-th vertex. -/
theorem Graph.adjacencyMatrix_one_iff [LinearOrder V] (g : Graph V) :
    ∀ i j (hi : i < (g.getAdjacencyMatrix).2.length)
      (hj : j < (g.getAdjacencyMatrix).2.length),
      ((((g.getAdjacencyMatrix).1.getD i []).getD j 0) = 1 ↔
        (g.getAdjacencyMatrix).2.get ⟨j, hj⟩ ∈
          g.getD ((g.getAdjacencyMatrix).2.get ⟨i, hi⟩)) := by
  intro i j hi hj
  rw [Graph.matrix_cell g i j hi hj]
  split
  · next h => simpa using h
  · next h => simpa using h

theorem Graph.adjacencyMatrix_one_iff_witness :
    (0 < (((Graph.empty Nat).addEdge 1 2 false).getAdjacencyMatrix).2.length ∧
      1 < (((Graph.empty Nat).addEdge 1 2 false).getAdjacencyMatrix).2.length) ∧
    (((((Graph.empty Nat).addEdge 1 2 false).getAdjacencyMatrix).1.getD 0 []).getD 1 0 = 1 ↔
      (((Graph.empty Nat).addEdge 1 2 false).getAdjacencyMatrix).2.get ⟨1, by decide⟩ ∈
        ((Graph.empty Nat).addEdge 1 2 false).getD
          ((((Graph.empty Nat).addEdge 1 2 false).getAdjacencyMatrix).2.get ⟨0, by decide⟩)) :=
  ⟨⟨by decide, by decide⟩,
    Graph.adjacencyMatrix_one_iff ((Graph.empty Nat).addEdge 1 2 false) 0 1
      (by decide) (by decide)⟩

/-- C5: `addEdge(a, b, directed)` first ensures both `a` and `b` have
adjacency entries, then appends `b` to `a`'s neighbor sequence, and appends
`a` to `b`'s neighbor sequence exactly when `directed` is false; so after
an undirected insertion each endpoint is a neighbor of the other, while a
directed insertion only makes `b` a neighbor of `a`, leaving `b`'s own
sequence unchanged (for distinct endpoints). -/
theorem Graph.addEdge_spec (g : Graph V) (a b : V) (directed : Bool) :
    (g.addEdge a b directed).has a = true ∧
    (g.addEdge a b directed).has b = true ∧
    (g.addEdge a b true).getD a = ((g.addVertex a).addVertex b).getD a ++ [b] ∧
    (a ≠ b → (g.addEdge a b true).getD b = ((g.addVertex a).addVertex b).getD b) ∧
    (a ≠ b → (g.addEdge a b false).getD a = ((g.addVertex a).addVertex b).getD a ++ [b]) ∧
    (a ≠ b → (g.addEdge a b false).getD b = ((g.addVertex a).addVertex b).getD b ++ [a]) ∧
    b ∈ (g.addEdge a b false).getD a ∧
    a ∈ (g.addEdge a b false).getD b ∧
    b ∈ (g.addEdge a b true).getD a := by
  refine ⟨?_, ?_, Graph.getD_addEdge_true_fst g a b, Graph.getD_addEdge_true_snd g a b,
    Graph.getD_addEdge_false_fst g a b, Graph.getD_addEdge_false_snd g a b,
    Graph.mem_getD_addEdge_false_fst g a b, Graph.mem_getD_addEdge_false_snd g a b,
    Graph.mem_getD_addEdge_true_fst g a b⟩
  · rw [Graph.has_addEdge]
    exact Graph.has_ensure_fst g a b
  · rw [Graph.has_addEdge]
    exact Graph.has_ensure_snd g a b

theorem Graph.addEdge_spec_witness :
    ((Graph.empty Nat).addEdge 1 2 true).has 1 = true ∧
    ((Graph.empty Nat).addEdge 1 2 true).getD 2 =
      (((Graph.empty Nat).addVertex 1).addVertex 2).getD 2 ∧
    ((Graph.empty Nat).addEdge 1 2 false).getD 1 =
      (((Graph.empty Nat).addVertex 1).addVertex 2).getD 1 ++ [2] ∧
    ((Graph.empty Nat).addEdge 1 2 false).getD 2 =
      (((Graph.empty Nat).addVertex 1).addVertex 2).getD 2 ++ [1] ∧
    2 ∈ ((Graph.empty Nat).addEdge 1 2 false).getD 1 ∧
    1 ∈ ((Graph.empty Nat).addEdge 1 2 false).getD 2 :=
  ⟨(Graph.addEdge_spec (Graph.empty Nat) 1 2 true).1,
    (Graph.addEdge_spec (Graph.empty Nat) 1 2 true).2.2.2.1 (by decide),
    (Graph.addEdge_spec (Graph.empty Nat) 1 2 true).2.2.2.2.1 (by decide),
    (Graph.addEdge_spec (Graph.empty Nat) 1 2 true).2.2.2.2.2.1 (by decide),
    (Graph.addEdge_spec (Graph.empty Nat) 1 2 true).2.2.2.2.2.2.1,
    (Graph.addEdge_spec (Graph.empty Nat) 1 2 true).2.2.2.2.2.2.2.1⟩

/-- C6: `addVertex` is idempotent: adding the same identifier twice leaves
the graph in exactly the state reached after adding it once, so the second
call is a no-op. -/
theorem Graph.addVertex_idempotent (g : Graph V) (v : V) :
    (g.addVertex v).addVertex v = g.addVertex v :=
  Graph.addVertex_of_has (g.addVertex v) v (Graph.has_addVertex_self g v)

theorem Graph.addVertex_idempotent_witness :
    ((Graph.empty Nat).addVertex 0).addVertex 0 = (Graph.empty Nat).addVertex 0 :=
  Graph.addVertex_idempotent (Graph.empty Nat) 0

/-- C7: when the starting identifier has no adjacency entry, `bfs(start)`
returns the singleton sequence `[start]` instead of failing: the defaulted
neighbor lookup yields an empty sequence, so the loop visits only `start`. -/
theorem Graph.bfs_no_entry (g : Graph V) (start : V) (h : g.get? start = none) :
    g.bfs start = [start] := by
  have hout := g.bfs_out start
  refine nodup_mem_iff_singleton hout.nodup ?_
  intro v
  rw [hout.mem_iff v]
  constructor
  · rintro ⟨n, hn⟩
    exact Graph.reachable_no_entry g start h n v hn
  · rintro rfl
    exact ⟨0, Graph.ReachN.refl⟩

theorem Graph.bfs_no_entry_witness :
    ((Graph.empty Nat).addEdge 1 2 false).get? 0 = none ∧
    ((Graph.empty Nat).addEdge 1 2 false).bfs 0 = [0] :=
  ⟨rfl, Graph.bfs_no_entry ((Graph.empty Nat).addEdge 1 2 false) 0 rfl⟩

/-- C8: `getAdjacencyList()` is read-only (the method-call view returns the
graph unchanged) and produces one line per vertex in the mapping's
iteration order, each formatted as the vertex, a colon, and the bracketed
neighbor sequence joined by commas, as described by `adjacencyListLines`. -/
theorem Graph.getAdjacencyList_spec [ToString V] (g : Graph V) :
    g.getAdjacencyListRun = (Graph.adjacencyListLines g, g) := by
  unfold Graph.getAdjacencyListRun
  rw [Graph.getAdjacencyList_eq_lines]

theorem Graph.getAdjacencyList_spec_witness :
    ((Graph.empty Nat).addEdge 1 2 false).getAdjacencyListRun =
      (Graph.adjacencyListLines ((Graph.empty Nat).addEdge 1 2 false),
        (Graph.empty Nat).addEdge 1 2 false) :=
  Graph.getAdjacencyList_spec ((Graph.empty Nat).addEdge 1 2 false)

/-- C9: `dfs` on an identifier with no adjacency entry returns the
singleton `[start]`, and for every graph and start the result is non-empty
and begins with `start`, because the helper unconditionally records `start`
before looking up neighbors. -/
theorem Graph.dfs_no_entry_singleton (g : Graph V) (start : V) :
    (∃ t, g.dfs start = start :: t) ∧
    (g.get? start = none → g.dfs start = [start]) := by
  have hout := g.dfs_out start
  refine ⟨hout.head, ?_⟩
  intro h
  refine nodup_mem_iff_singleton hout.nodup ?_
  intro v
  rw [hout.mem_iff v]
  constructor
  · rintro ⟨n, hn⟩
    exact Graph.reachable_no_entry g start h n v hn
  · rintro rfl
    exact ⟨0, Graph.ReachN.refl⟩

theorem Graph.dfs_no_entry_singleton_witness :
    (∃ t, ((Graph.empty Nat).addEdge 1 2 false).dfs 0 = 0 :: t) ∧
    ((Graph.empty Nat).addEdge 1 2 false).dfs 0 = [0] :=
  ⟨(Graph.dfs_no_entry_singleton ((Graph.empty Nat).addEdge 1 2 false) 0).1,
    (Graph.dfs_no_entry_singleton ((Graph.empty Nat).addEdge 1 2 false) 0).2 rfl⟩

/-- C10: `bfs` and `dfs` never mutate the graph: in the method-call view
`state → result × state`, both traversals return the adjacency mapping
exactly as it was before the call (the embedded methods read the mapping
but never set a key or push onto a stored neighbor array), and their
results are the pure traversal values. -/
theorem Graph.traversals_preserve_graph (g : Graph V) (start : V) :
    (g.bfsRun start).2 = g ∧ (g.dfsRun start).2 = g ∧
    (g.bfsRun start).1 = g.bfs start ∧ (g.dfsRun start).1 = g.dfs start :=
  ⟨rfl, rfl, rfl, rfl⟩

theorem Graph.traversals_preserve_graph_witness :
    (((Graph.empty Nat).addEdge 1 2 false).bfsRun 0).2 = (Graph.empty Nat).addEdge 1 2 false ∧
    (((Graph.empty Nat).addEdge 1 2 false).dfsRun 0).2 = (Graph.empty Nat).addEdge 1 2 false ∧
    (((Graph.empty Nat).addEdge 1 2 false).bfsRun 0).1 =
      ((Graph.empty Nat).addEdge 1 2 false).bfs 0 ∧
    (((Graph.empty Nat).addEdge 1 2 false).dfsRun 0).1 =
      ((Graph.empty Nat).addEdge 1 2 false).dfs 0 :=
  Graph.traversals_preserve_graph ((Graph.empty Nat).addEdge 1 2 false) 0
